import Mathlib

/-!
Verification of the duplicate-question detector
(src/src/lib/duplicate-detector.ts).

Strings are modeled as lists of characters.  Character classes
(punctuation and symbol removal, whitespace, lowercasing) are modeled
over the ASCII range, which is the scope of every concrete input
considered in this development.  JavaScript numbers are modeled as
exact rationals.
-/

abbrev Str := List Char

/-- Characters matched by the removal class of the normalizer: the regex
class of Unicode punctuation plus the nine symbol characters dollar,
plus, less-than, equals, greater-than, caret, backquote, vertical bar
and tilde.  Over ASCII this union is exactly the four ranges below,
i.e. every printable non-alphanumeric, non-space character. -/
def removedClass (c : Char) : Bool :=
  (33 ≤ c.toNat && c.toNat ≤ 47) || (58 ≤ c.toNat && c.toNat ≤ 64) ||
  (91 ≤ c.toNat && c.toNat ≤ 96) || (123 ≤ c.toNat && c.toNat ≤ 126)

/-- ASCII characters of the Unicode punctuation general category P: the
removal class minus the nine symbol (category S) characters. -/
def punctClass (c : Char) : Bool :=
  removedClass c &&
    !(c.toNat = 36 || c.toNat = 43 || c.toNat = 60 || c.toNat = 61 ||
      c.toNat = 62 || c.toNat = 94 || c.toNat = 96 || c.toNat = 124 || c.toNat = 126)

/-- JavaScript whitespace (ASCII scope): space, tab, line feed, vertical
tab, form feed, carriage return. -/
def isWs (c : Char) : Bool :=
  c.toNat = 32 || (9 ≤ c.toNat && c.toNat ≤ 13)

theorem length_dropWhile_le {α : Type} (p : α → Bool) (l : List α) :
    (l.dropWhile p).length ≤ l.length := by
  induction l with
  | nil => simp [List.dropWhile]
  | cons a l ih =>
    by_cases h : p a
    · simp only [List.dropWhile, h]
      exact Nat.le_succ_of_le ih
    · simp [List.dropWhile, h]

/-- State machine replacing every maximal whitespace run by a single
space; the flag records whether the previous character was whitespace
(so the run has already emitted its space). -/
def collapseWsAux (inRun : Bool) : Str → Str
  | [] => []
  | c :: rest =>
    if isWs c then
      if inRun then collapseWsAux true rest
      else ' ' :: collapseWsAux true rest
    else c :: collapseWsAux false rest

/-- Replace every maximal whitespace run by a single space (the global
replacement of one-or-more whitespace by a space in the normalizer). -/
def collapseWs (s : Str) : Str := collapseWsAux false s

/-- JavaScript String.prototype.trim: drop whitespace from both ends. -/
def jsTrim (s : Str) : Str :=
  ((s.dropWhile isWs).reverse.dropWhile isWs).reverse

/-- The normalizer: lowercase, remove the removal class, collapse
whitespace runs to single spaces, trim. -/
def normalizeText (s : Str) : Str :=
  jsTrim (collapseWs ((s.map Char.toLower).filter (fun c => !removedClass c)))

/-- Maximal non-whitespace chunks of a string, in order. -/
def wordsOf : Str → List Str
  | [] => []
  | c :: rest =>
    if isWs c then wordsOf rest
    else (c :: rest.takeWhile (fun d => !isWs d)) :: wordsOf (rest.dropWhile (fun d => !isWs d))
termination_by s => s.length
decreasing_by
  · exact Nat.lt_succ_self rest.length
  · exact Nat.lt_succ_of_le (length_dropWhile_le (fun d => !isWs d) rest)

/-- The whitespace split of the source applied to normalized text.
Normalized text contains no whitespace runs of length above one and no
boundary whitespace, so splitting at every whitespace character agrees
with the JavaScript split on one-or-more whitespace. -/
def splitWs (s : Str) : List Str := s.splitOnP isWs

/-- Tokenizer: split the normalized text on whitespace and drop words of
length at most two. -/
def tokenize (s : Str) : List Str :=
  (splitWs (normalizeText s)).filter (fun w => 2 < w.length)

/-- Jaccard token-set overlap; the union size is replaced by 1 when it
is zero, as in the source. -/
def jaccard (a b : List Str) : ℚ :=
  let as := a.dedup
  let bs := b.dedup
  let inter := (as.filter (fun x => decide (x ∈ bs))).length
  let union := ((as ++ bs).dedup).length
  (inter : ℚ) / (if union = 0 then 1 else (union : ℚ))

/-- One row update of the LCS dynamic program (the inner loop of the
source): olds holds the previous row at the remaining columns, diag the
previous row entry one column back, left the current row entry one
column back. -/
def lcsRowAux (ai : Char) : Str → List Nat → Nat → Nat → List Nat
  | bj :: bs, oldj :: olds, diag, left =>
    let v := if ai = bj then diag + 1 else max oldj left
    v :: lcsRowAux ai bs olds oldj v
  | _, _, _, _ => []

/-- Longest-common-subsequence length, computed bottom-up with a single
row as in the source (the implicit column 0 of each row is always 0). -/
def lcsLenDP (a b : Str) : Nat :=
  (a.foldl (fun row ai => lcsRowAux ai b row 0 0) (List.replicate b.length 0)).getLastD 0

/-- LCS length ratio: LCS length over the length of the longer string. -/
def lcsRatio (a b : Str) : ℚ :=
  if a.length = 0 || b.length = 0 then 0
  else (lcsLenDP a b : ℚ) / ((max a.length b.length : Nat) : ℚ)

/-- One row update of the Levenshtein dynamic program; same row
conventions as lcsRowAux. -/
def levRowAux (ai : Char) : Str → List Nat → Nat → Nat → List Nat
  | bj :: bs, oldj :: olds, diag, left =>
    let v := if ai = bj then diag else 1 + min oldj (min left diag)
    v :: levRowAux ai bs olds oldj v
  | _, _, _, _ => []

/-- Levenshtein distance via the row-by-row dynamic program of the
source; row i carries the boundary value i at column 0. -/
def editDistance (a b : Str) : Nat :=
  (a.foldl
    (fun st ai =>
      match st with
      | (i, d :: olds) => (i + 1, (i + 1) :: levRowAux ai b olds d (i + 1))
      | (i, []) => (i + 1, []))
    (0, List.range (b.length + 1))).2.getLastD 0

/-- Normalized edit-distance similarity: 1 minus distance over the
longer length, 0 when both strings are empty. -/
def editDistanceRatio (a b : Str) : ℚ :=
  if max a.length b.length = 0 then 0
  else 1 - (editDistance a b : ℚ) / ((max a.length b.length : Nat) : ℚ)

/-- Key terms of a text: normalized whitespace-split tokens of length
above 3, of which those of length at least 5 are kept, as a set. -/
def extractKeyTerms (text : Str) : List Str :=
  let tokens := (splitWs (normalizeText text)).filter (fun w => 3 < w.length)
  (tokens.filter (fun w => 5 ≤ w.length)).dedup

/-- Concept similarity: Jaccard overlap of the key-term sets, defined as
0 when both term sets are empty. -/
def conceptSimilarity (a b : Str) : ℚ :=
  let termsA := extractKeyTerms a
  let termsB := extractKeyTerms b
  if termsA.length = 0 && termsB.length = 0 then 0
  else
    let inter := (termsA.filter (fun x => decide (x ∈ termsB))).length
    let union := ((termsA ++ termsB).dedup).length
    if 0 < union then (inter : ℚ) / (union : ℚ) else 0

inductive QuestionLength where
  | short
  | medium
  | long
deriving DecidableEq, Repr

inductive ModelStrength where
  | weak
  | medium
  | strong
deriving DecidableEq, Repr

/-- The caller-supplied duplication context.  The difficulty field is a
free-form string in the source. -/
structure DuplicationContext where
  questionLength : Option QuestionLength
  difficulty : Option Str
  modelStrength : Option ModelStrength
  numQuestions : Option Int
deriving DecidableEq, Repr

/-- The four decision thresholds (jaccard, lcs, edit, concept). -/
structure Thresh where
  jac : ℚ
  lcs : ℚ
  edit : ℚ
  concept : ℚ
deriving DecidableEq, Repr

/-- The per-metric thresholds computed by areSimilar: base values, the
sequence of context adjustments of the source (the question-length stage
assigns constants, the others add), and the final clamping.  The
numQuestions guard models the JavaScript truthiness test together with
the comparison with 50 (a number above 50 is in particular nonzero). -/
def thresholds (context : Option DuplicationContext) : Thresh :=
  let t :=
    match context with
    | none => Thresh.mk 0.6 0.7 0.75 0.5
    | some c =>
      let t1 : Thresh :=
        if c.questionLength = some QuestionLength.short then Thresh.mk 0.45 0.6 0.65 0.4
        else if c.questionLength = some QuestionLength.long then Thresh.mk 0.7 0.8 0.85 0.6
        else Thresh.mk 0.6 0.7 0.75 0.5
      let t2 : Thresh :=
        if c.difficulty = some ("easy".data) then
          Thresh.mk (t1.jac - 0.1) (t1.lcs - 0.1) (t1.edit - 0.1) (t1.concept - 0.1)
        else if c.difficulty = some ("hard".data) then
          Thresh.mk (t1.jac + 0.05) (t1.lcs + 0.05) (t1.edit + 0.05) (t1.concept + 0.05)
        else t1
      let t3 : Thresh :=
        if c.modelStrength = some ModelStrength.weak then
          Thresh.mk (t2.jac - 0.15) (t2.lcs - 0.15) (t2.edit - 0.15) (t2.concept - 0.1)
        else if c.modelStrength = some ModelStrength.strong then
          Thresh.mk (t2.jac + 0.05) (t2.lcs + 0.05) (t2.edit + 0.05) (t2.concept + 0.05)
        else t2
      match c.numQuestions with
      | some n =>
        if 50 < n then
          let adjustment : ℚ := min 0.15 (((n : ℚ) - 50) / 300)
          Thresh.mk (t3.jac + adjustment) (t3.lcs + adjustment)
            (t3.edit + adjustment) (t3.concept + adjustment)
        else t3
      | none => t3
  Thresh.mk (max 0.2 (min 0.85 t.jac)) (max 0.3 (min 0.9 t.lcs))
    (max 0.4 (min 0.95 t.edit)) (max 0.2 (min 0.8 t.concept))

/-- Number of metric votes required to declare a duplicate: one in a
high-risk context (short questions, easy difficulty or a weak model),
two otherwise and when no context is given. -/
def requiredMatches (context : Option DuplicationContext) : Nat :=
  match context with
  | some c =>
    if c.questionLength = some QuestionLength.short ∨ c.difficulty = some ("easy".data) ∨
        c.modelStrength = some ModelStrength.weak then 1 else 2
  | none => 2

/-- The similarity predicate: falsy inputs never match, identical
strings always match, otherwise the four metrics vote against the
context-derived thresholds. -/
def areSimilar (a b : Str) (context : Option DuplicationContext) : Bool :=
  if a = [] || b = [] then false
  else if a = b then true
  else
    let jaccardSim := jaccard (tokenize a) (tokenize b)
    let lcsSim := lcsRatio a b
    let editSim := editDistanceRatio (normalizeText a) (normalizeText b)
    let conceptSim := conceptSimilarity a b
    let t := thresholds context
    let similarityChecks := [decide (t.jac ≤ jaccardSim), decide (t.lcs ≤ lcsSim),
      decide (t.edit ≤ editSim), decide (t.concept ≤ conceptSim)]
    let matchCount := (similarityChecks.filter id).length
    decide (requiredMatches context ≤ matchCount)

/-- A question record; all fields other than questionText are carried
through deduplication unchanged and unused. -/
structure Question where
  questionText : Str
  questionType : Str
  optionA : Option Str
  optionB : Option Str
  optionC : Option Str
  optionD : Option Str
  correctAnswer : Str
  rationale : Option Str
  points : Option ℚ
  orderIndex : Option ℚ
deriving DecidableEq, Repr

/-- The normalized comparison key of a question in removeDuplicates:
its text trimmed, then normalized. -/
def normQ (q : Question) : Str := normalizeText (jsTrim q.questionText)

structure DedupResult where
  unique : List Question
  duplicatesRemoved : Nat
deriving DecidableEq, Repr

/-- The greedy deduplication loop: uniques is the list kept so far; a
question similar to some kept question is dropped and counted. -/
def removeDuplicatesAux (context : Option DuplicationContext) (uniques : List Question) :
    List Question → List Question × Nat
  | [] => (uniques, 0)
  | q :: rest =>
    if uniques.any (fun u => areSimilar (normQ q) (normQ u) context) then
      let r := removeDuplicatesAux context uniques rest
      (r.1, r.2 + 1)
    else
      removeDuplicatesAux context (uniques ++ [q]) rest

def removeDuplicates (questions : List Question) (context : Option DuplicationContext) :
    DedupResult :=
  let r := removeDuplicatesAux context [] questions
  DedupResult.mk r.1 r.2

/-! ### Properties of the deduplication driver -/

/-- The invariant between kept questions: a later kept question is not
similar to an earlier kept one, in the orientation the driver uses. -/
def KeptRel (context : Option DuplicationContext) (u v : Question) : Prop :=
  areSimilar (normQ v) (normQ u) context = false

theorem removeDuplicatesAux_count (context : Option DuplicationContext) :
    ∀ (qs acc : List Question),
      (removeDuplicatesAux context acc qs).1.length + (removeDuplicatesAux context acc qs).2 =
        acc.length + qs.length := by
  intro qs
  induction qs with
  | nil => intro acc; simp [removeDuplicatesAux]
  | cons q rest ih =>
    intro acc
    by_cases h : acc.any (fun u => areSimilar (normQ q) (normQ u) context) = true
    · simp only [removeDuplicatesAux, if_pos h, List.length_cons]
      have := ih acc
      omega
    · simp only [removeDuplicatesAux, if_neg h, List.length_cons]
      have := ih (acc ++ [q])
      simp only [List.length_append, List.length_cons, List.length_nil] at this
      omega

theorem removeDuplicatesAux_pairwise (context : Option DuplicationContext) :
    ∀ (qs acc : List Question), List.Pairwise (KeptRel context) acc →
      List.Pairwise (KeptRel context) (removeDuplicatesAux context acc qs).1 := by
  intro qs
  induction qs with
  | nil => intro acc hacc; simpa [removeDuplicatesAux] using hacc
  | cons q rest ih =>
    intro acc hacc
    by_cases h : acc.any (fun u => areSimilar (normQ q) (normQ u) context) = true
    · simp only [removeDuplicatesAux, if_pos h]
      exact ih acc hacc
    · simp only [removeDuplicatesAux, if_neg h]
      refine ih (acc ++ [q]) ?_
      rw [List.pairwise_append]
      refine ⟨hacc, List.pairwise_singleton _ _, ?_⟩
      intro u hu v hv
      rw [List.mem_singleton] at hv
      subst hv
      have h' := (List.any_eq_false (l := acc)).mp (Bool.eq_false_iff.mpr h) u hu
      exact Bool.eq_false_iff.mpr h'

theorem removeDuplicatesAux_of_pairwise (context : Option DuplicationContext) :
    ∀ (qs acc : List Question), List.Pairwise (KeptRel context) (acc ++ qs) →
      removeDuplicatesAux context acc qs = (acc ++ qs, 0) := by
  intro qs
  induction qs with
  | nil => intro acc _; simp [removeDuplicatesAux]
  | cons q rest ih =>
    intro acc hp
    have hmid : ∀ u ∈ acc, KeptRel context u q := by
      intro u hu
      rcases (List.pairwise_append.mp hp) with ⟨_, _, hcross⟩
      exact hcross u hu q (by simp)
    have hany : acc.any (fun u => areSimilar (normQ q) (normQ u) context) = false := by
      rw [List.any_eq_false]
      intro u hu
      have := hmid u hu
      simp only [KeptRel] at this
      simp [this]
    simp only [removeDuplicatesAux, hany]
    rw [if_neg (by simp)]
    have hassoc : acc ++ q :: rest = (acc ++ [q]) ++ rest := by simp
    rw [hassoc] at hp
    have := ih (acc ++ [q]) hp
    rw [this]
    simp

theorem removeDuplicates_unique_pairwise (qs : List Question)
    (context : Option DuplicationContext) :
    List.Pairwise (KeptRel context) (removeDuplicates qs context).unique :=
  removeDuplicatesAux_pairwise context qs [] List.Pairwise.nil

theorem areSimilar_nil_left (b : Str) (context : Option DuplicationContext) :
    areSimilar [] b context = false := by
  simp [areSimilar]

theorem areSimilar_nil_right (a : Str) (context : Option DuplicationContext) :
    areSimilar a [] context = false := by
  simp [areSimilar]

theorem areSimilar_self (a : Str) (ha : a ≠ []) (context : Option DuplicationContext) :
    areSimilar a a context = true := by
  simp [areSimilar, ha]

theorem normQ_of_empty (q : Question) (h : q.questionText = []) : normQ q = [] := by
  simp [normQ, h, jsTrim, normalizeText, collapseWs, collapseWsAux, List.dropWhile]

theorem removeDuplicatesAux_filter_empty (context : Option DuplicationContext) :
    ∀ (qs acc : List Question),
      (removeDuplicatesAux context acc qs).1.filter (fun q => decide (q.questionText = [])) =
        acc.filter (fun q => decide (q.questionText = [])) ++
          qs.filter (fun q => decide (q.questionText = [])) := by
  intro qs
  induction qs with
  | nil => intro acc; simp [removeDuplicatesAux]
  | cons q rest ih =>
    intro acc
    by_cases hq : q.questionText = []
    · have hnil : normQ q = [] := normQ_of_empty q hq
      have hany : acc.any (fun u => areSimilar (normQ q) (normQ u) context) = false := by
        rw [List.any_eq_false]
        intro u _
        rw [hnil, areSimilar_nil_left]
        simp
      simp only [removeDuplicatesAux, hany]
      rw [if_neg (by simp)]
      rw [ih (acc ++ [q])]
      simp [List.filter_append, hq]
    · by_cases h : acc.any (fun u => areSimilar (normQ q) (normQ u) context) = true
      · simp only [removeDuplicatesAux, if_pos h]
        rw [ih acc]
        simp [hq]
      · simp only [removeDuplicatesAux, if_neg h]
        rw [ih (acc ++ [q])]
        simp [List.filter_append, hq]

/-! ### Claim theorems: the deduplication driver -/

/-- Claim C1: for every input list of questions and every (possibly
absent) context, the number of kept questions plus the number of removed
duplicates equals the length of the input list. -/
theorem claim_C1_count_invariant (questions : List Question)
    (context : Option DuplicationContext) :
    (removeDuplicates questions context).unique.length +
      (removeDuplicates questions context).duplicatesRemoved = questions.length := by
  have := removeDuplicatesAux_count context questions []
  simpa [removeDuplicates] using this

/-- Claim C2: removeDuplicates is idempotent.  Running it again on the
unique list of a first run keeps that list unchanged (same list, hence
same length) and removes nothing. -/
theorem claim_C2_idempotent (questions : List Question)
    (context : Option DuplicationContext) :
    (removeDuplicates (removeDuplicates questions context).unique context).unique =
        (removeDuplicates questions context).unique ∧
      (removeDuplicates (removeDuplicates questions context).unique context).duplicatesRemoved
        = 0 := by
  have hp : List.Pairwise (KeptRel context) (removeDuplicatesAux context [] questions).1 := by
    simpa [removeDuplicates] using removeDuplicates_unique_pairwise questions context
  have h := removeDuplicatesAux_of_pairwise context
    (removeDuplicatesAux context [] questions).1 [] (by simpa using hp)
  simp only [List.nil_append] at h
  constructor
  · simp [removeDuplicates, h]
  · simp [removeDuplicates, h]

/-- Claim C5: an empty string on either side makes areSimilar false for
every context, and consequently questions whose questionText is the
empty string are never deduplicated: they all survive into the unique
list (in particular two empty-text questions never collapse). -/
theorem claim_C5_empty_text (context : Option DuplicationContext) :
    (∀ b : Str, areSimilar [] b context = false) ∧
    (∀ a : Str, areSimilar a [] context = false) ∧
    (∀ questions : List Question,
      (removeDuplicates questions context).unique.filter
          (fun q => decide (q.questionText = [])) =
        questions.filter (fun q => decide (q.questionText = []))) := by
  refine ⟨fun b => areSimilar_nil_left b context, fun a => areSimilar_nil_right a context, ?_⟩
  intro questions
  have := removeDuplicatesAux_filter_empty context questions []
  simpa [removeDuplicates] using this

theorem pairwise_filter_text_le_one (context : Option DuplicationContext) (l : List Question)
    (hl : List.Pairwise (KeptRel context) l) (t : Str)
    (ht : normalizeText (jsTrim t) ≠ []) :
    (l.filter (fun q => decide (q.questionText = t))).length ≤ 1 := by
  have hp := hl.filter (fun q => decide (q.questionText = t))
  rcases hfl : l.filter (fun q => decide (q.questionText = t)) with _ | ⟨x, _ | ⟨y, rest⟩⟩
  · simp [hfl]
  · simp [hfl]
  · exfalso
    rw [hfl] at hp
    have hxy : KeptRel context x y := (List.pairwise_cons.mp hp).1 y (by simp)
    have hx : x.questionText = t := by
      have hmem : x ∈ l.filter (fun q => decide (q.questionText = t)) := by rw [hfl]; simp
      simpa using (List.mem_filter.mp hmem).2
    have hy : y.questionText = t := by
      have hmem : y ∈ l.filter (fun q => decide (q.questionText = t)) := by rw [hfl]; simp
      simpa using (List.mem_filter.mp hmem).2
    have hsim : areSimilar (normQ y) (normQ x) context = true := by
      have h1 : normQ y = normalizeText (jsTrim t) := by simp [normQ, hy]
      have h2 : normQ x = normalizeText (jsTrim t) := by simp [normQ, hx]
      rw [h1, h2]
      exact areSimilar_self _ ht context
    rw [KeptRel, hsim] at hxy
    exact absurd hxy (by simp)

/-- A question record with the given text and default remaining fields,
used for concrete inputs. -/
def mkQuestion (t : Str) : Question :=
  Question.mk t [] none none none none [] none none none

/-- Claim C6 counterexample: two questions with identical (nonempty)
questionText consisting of a single question mark are BOTH kept, and
nothing is counted as removed: the normalizer erases pure punctuation,
the predicate receives two empty strings and returns false. -/
theorem claim_C6_counterexample :
    (removeDuplicates [mkQuestion ("?".data), mkQuestion ("?".data)] none).unique.length = 2 ∧
      (removeDuplicates [mkQuestion ("?".data), mkQuestion ("?".data)] none).duplicatesRemoved
        = 0 := by
  decide

/-- Claim C6 (amended): for every context and every questionText whose
trimmed and normalized form is nonempty, at most one question carrying
that text survives into the unique list — later questions with the same
text are dropped (texts that normalize to the empty string, such as pure
punctuation, are exempt: those questions never match anything). -/
theorem claim_C6_identical_text (questions : List Question)
    (context : Option DuplicationContext) (t : Str)
    (ht : normalizeText (jsTrim t) ≠ []) :
    ((removeDuplicates questions context).unique.filter
      (fun q => decide (q.questionText = t))).length ≤ 1 :=
  pairwise_filter_text_le_one context _
    (removeDuplicates_unique_pairwise questions context) t ht

/-- Claim C6 witness: the amended theorem applied to two questions with
the text abc; exactly one of them survives. -/
theorem claim_C6_witness :
    normalizeText (jsTrim ("abc".data)) ≠ [] ∧
      ((removeDuplicates [mkQuestion ("abc".data), mkQuestion ("abc".data)] none).unique.filter
        (fun q => decide (q.questionText = "abc".data))).length ≤ 1 :=
  ⟨by decide,
    claim_C6_identical_text [mkQuestion ("abc".data), mkQuestion ("abc".data)] none
      ("abc".data) (by decide)⟩

/-! ### Claims C3 and C4: thresholds and the voting rule -/

/-- Componentwise sum of threshold vectors. -/
def threshAdd (t u : Thresh) : Thresh :=
  Thresh.mk (t.jac + u.jac) (t.lcs + u.lcs) (t.edit + u.edit) (t.concept + u.concept)

/-- Spec-side question-length adjustment (additive). -/
def specQLAdj (c : DuplicationContext) : Thresh :=
  if c.questionLength = some QuestionLength.short then
    Thresh.mk (-0.15) (-0.1) (-0.1) (-0.1)
  else if c.questionLength = some QuestionLength.long then Thresh.mk 0.1 0.1 0.1 0.1
  else Thresh.mk 0 0 0 0

/-- Spec-side difficulty adjustment (additive). -/
def specDiffAdj (c : DuplicationContext) : Thresh :=
  if c.difficulty = some ("easy".data) then Thresh.mk (-0.1) (-0.1) (-0.1) (-0.1)
  else if c.difficulty = some ("hard".data) then Thresh.mk 0.05 0.05 0.05 0.05
  else Thresh.mk 0 0 0 0

/-- Spec-side model-strength adjustment (additive). -/
def specMSAdj (c : DuplicationContext) : Thresh :=
  if c.modelStrength = some ModelStrength.weak then
    Thresh.mk (-0.15) (-0.15) (-0.15) (-0.1)
  else if c.modelStrength = some ModelStrength.strong then Thresh.mk 0.05 0.05 0.05 0.05
  else Thresh.mk 0 0 0 0

/-- Spec-side batch-size adjustment (additive). -/
def specNumAdj (c : DuplicationContext) : Thresh :=
  match c.numQuestions with
  | some n =>
    if 50 < n then
      Thresh.mk (min 0.15 (((n : ℚ) - 50) / 300)) (min 0.15 (((n : ℚ) - 50) / 300))
        (min 0.15 (((n : ℚ) - 50) / 300)) (min 0.15 (((n : ℚ) - 50) / 300))
    else Thresh.mk 0 0 0 0
  | none => Thresh.mk 0 0 0 0

/-- Spec-side clamp into the fixed safety bounds. -/
def specClamp (t : Thresh) : Thresh :=
  Thresh.mk (max 0.2 (min 0.85 t.jac)) (max 0.3 (min 0.9 t.lcs))
    (max 0.4 (min 0.95 t.edit)) (max 0.2 (min 0.8 t.concept))

/-- Following the spec: thresholds are the base values plus the four
independent additive adjustments, clamped. -/
def specThresholds (context : Option DuplicationContext) : Thresh :=
  let adj : Thresh :=
    match context with
    | none => Thresh.mk 0 0 0 0
    | some c =>
      threshAdd (threshAdd (threshAdd (specQLAdj c) (specDiffAdj c)) (specMSAdj c))
        (specNumAdj c)
  specClamp (threshAdd (Thresh.mk 0.6 0.7 0.75 0.5) adj)

theorem clamp_congr (lo hi : ℚ) {x y : ℚ} (h : x = y) :
    max lo (min hi x) = max lo (min hi y) := by rw [h]

set_option maxHeartbeats 3000000 in
theorem thresholds_eq_spec (context : Option DuplicationContext) :
    thresholds context = specThresholds context := by
  rcases context with _ | ⟨ql, diff, ms, nq⟩
  · with_unfolding_all decide
  · rcases nq with _ | n <;>
    · simp only [thresholds, specThresholds, threshAdd, specQLAdj, specDiffAdj, specMSAdj,
        specNumAdj, specClamp]
      split_ifs <;>
      · simp only [Thresh.mk.injEq]
        refine ⟨clamp_congr _ _ (by ring), clamp_congr _ _ (by ring),
          clamp_congr _ _ (by ring), clamp_congr _ _ (by ring)⟩

/-- Claim C3: for every context, the four decision thresholds used by
areSimilar equal the base values plus the additive adjustments for
question length, difficulty, model strength and batch size, clamped into
the fixed bounds. -/
theorem claim_C3_thresholds (context : Option DuplicationContext) :
    thresholds context = specThresholds context :=
  thresholds_eq_spec context

/-- Claim C4: for nonempty, non-identical strings, areSimilar holds iff
the number of metrics at or above their thresholds reaches the required
vote count: 1 when the context has short question length, easy
difficulty or a weak model, 2 otherwise, and 2 when no context is
supplied (with base thresholds, by claim C3). -/
theorem claim_C4_voting (a b : Str) (context : Option DuplicationContext)
    (ha : a ≠ []) (hb : b ≠ []) (hab : a ≠ b) :
    (areSimilar a b context = true ↔
      (match context with
        | some c =>
          if c.questionLength = some QuestionLength.short ∨
              c.difficulty = some ("easy".data) ∨
              c.modelStrength = some ModelStrength.weak then 1 else 2
        | none => 2) ≤
        ([decide ((thresholds context).jac ≤ jaccard (tokenize a) (tokenize b)),
          decide ((thresholds context).lcs ≤ lcsRatio a b),
          decide ((thresholds context).edit ≤
            editDistanceRatio (normalizeText a) (normalizeText b)),
          decide ((thresholds context).concept ≤ conceptSimilarity a b)].filter id).length) := by
  simp only [areSimilar]
  rw [if_neg (by simp [ha, hb]), if_neg hab]
  simp only [requiredMatches, decide_eq_true_eq]

/-- Claim C4 witness: the voting rule at two concrete unrelated strings
with no context; no metric reaches its threshold and the call returns
false, matching a vote count of 0 below the required 2. -/
theorem claim_C4_witness :
    ("ab".data ≠ ([] : Str)) ∧ ("cd".data ≠ ([] : Str)) ∧ "ab".data ≠ "cd".data ∧
      (areSimilar "ab".data "cd".data none = true ↔
        2 ≤ ([decide ((thresholds none).jac ≤
                jaccard (tokenize ("ab".data)) (tokenize ("cd".data))),
              decide ((thresholds none).lcs ≤ lcsRatio ("ab".data) ("cd".data)),
              decide ((thresholds none).edit ≤
                editDistanceRatio (normalizeText ("ab".data)) (normalizeText ("cd".data))),
              decide ((thresholds none).concept ≤
                conceptSimilarity ("ab".data) ("cd".data))].filter id).length) :=
  ⟨by decide, by decide, by decide,
    claim_C4_voting ("ab".data) ("cd".data) none (by decide) (by decide) (by decide)⟩

/-! ### Claim C7: easy versus hard difficulty -/

theorem specQLAdj_difficulty_irrel (ql : Option QuestionLength) (d1 d2 : Option Str)
    (ms : Option ModelStrength) (nq : Option Int) :
    specQLAdj (DuplicationContext.mk ql d1 ms nq) =
      specQLAdj (DuplicationContext.mk ql d2 ms nq) := by
  simp [specQLAdj]

theorem specMSAdj_difficulty_irrel (ql : Option QuestionLength) (d1 d2 : Option Str)
    (ms : Option ModelStrength) (nq : Option Int) :
    specMSAdj (DuplicationContext.mk ql d1 ms nq) =
      specMSAdj (DuplicationContext.mk ql d2 ms nq) := by
  simp [specMSAdj]

theorem specNumAdj_difficulty_irrel (ql : Option QuestionLength) (d1 d2 : Option Str)
    (ms : Option ModelStrength) (nq : Option Int) :
    specNumAdj (DuplicationContext.mk ql d1 ms nq) =
      specNumAdj (DuplicationContext.mk ql d2 ms nq) := by
  simp [specNumAdj]

theorem specDiffAdj_easy (ql : Option QuestionLength) (ms : Option ModelStrength)
    (nq : Option Int) :
    specDiffAdj (DuplicationContext.mk ql (some ("easy".data)) ms nq) =
      Thresh.mk (-0.1) (-0.1) (-0.1) (-0.1) := by
  simp [specDiffAdj]

theorem specDiffAdj_hard (ql : Option QuestionLength) (ms : Option ModelStrength)
    (nq : Option Int) :
    specDiffAdj (DuplicationContext.mk ql (some ("hard".data)) ms nq) =
      Thresh.mk 0.05 0.05 0.05 0.05 := by
  rw [specDiffAdj]
  rw [if_neg (by simp), if_pos (by simp)]

theorem thresholds_easy_le_hard (ql : Option QuestionLength) (ms : Option ModelStrength)
    (nq : Option Int) :
    (thresholds (some (DuplicationContext.mk ql (some ("easy".data)) ms nq))).jac ≤
        (thresholds (some (DuplicationContext.mk ql (some ("hard".data)) ms nq))).jac ∧
      (thresholds (some (DuplicationContext.mk ql (some ("easy".data)) ms nq))).lcs ≤
        (thresholds (some (DuplicationContext.mk ql (some ("hard".data)) ms nq))).lcs ∧
      (thresholds (some (DuplicationContext.mk ql (some ("easy".data)) ms nq))).edit ≤
        (thresholds (some (DuplicationContext.mk ql (some ("hard".data)) ms nq))).edit ∧
      (thresholds (some (DuplicationContext.mk ql (some ("easy".data)) ms nq))).concept ≤
        (thresholds (some (DuplicationContext.mk ql (some ("hard".data)) ms nq))).concept := by
  rw [thresholds_eq_spec, thresholds_eq_spec]
  simp only [specThresholds]
  rw [specDiffAdj_easy, specDiffAdj_hard,
    specQLAdj_difficulty_irrel ql (some ("easy".data)) (some ("hard".data)) ms nq,
    specMSAdj_difficulty_irrel ql (some ("easy".data)) (some ("hard".data)) ms nq,
    specNumAdj_difficulty_irrel ql (some ("easy".data)) (some ("hard".data)) ms nq]
  refine ⟨?_, ?_, ?_, ?_⟩ <;>
  · simp only [specClamp, threshAdd]
    gcongr <;> linarith

theorem requiredMatches_easy (ql : Option QuestionLength) (ms : Option ModelStrength)
    (nq : Option Int) :
    requiredMatches (some (DuplicationContext.mk ql (some ("easy".data)) ms nq)) = 1 := by
  simp [requiredMatches]

theorem one_le_requiredMatches (context : Option DuplicationContext) :
    1 ≤ requiredMatches context := by
  rcases context with _ | c
  · simp [requiredMatches]
  · rw [requiredMatches]
    split_ifs <;> simp

theorem count_le_of_pointwise (a1 a2 a3 a4 b1 b2 b3 b4 : Bool)
    (h1 : a1 = true → b1 = true) (h2 : a2 = true → b2 = true)
    (h3 : a3 = true → b3 = true) (h4 : a4 = true → b4 = true) :
    ([a1, a2, a3, a4].filter id).length ≤ ([b1, b2, b3, b4].filter id).length := by
  cases a1 <;> cases a2 <;> cases a3 <;> cases a4 <;> cases b1 <;> cases b2 <;> cases b3 <;>
    cases b4 <;> simp_all [List.filter]

/-- Claim C7 (amended): for every pair of texts and every context that is
otherwise fixed, if areSimilar returns true with difficulty hard then it
also returns true with difficulty easy — easy is never stricter than
hard on a single comparison.  (The original claim additionally inferred
that removeDuplicates with easy never removes fewer duplicates than with
hard; that consequence is false for the greedy driver, see the
counterexample.) -/
theorem claim_C7_easy_of_hard (a b : Str) (ql : Option QuestionLength)
    (ms : Option ModelStrength) (nq : Option Int)
    (h : areSimilar a b (some (DuplicationContext.mk ql (some ("hard".data)) ms nq)) = true) :
    areSimilar a b (some (DuplicationContext.mk ql (some ("easy".data)) ms nq)) = true := by
  by_cases ha : a = []
  · rw [ha, areSimilar_nil_left] at h
    exact absurd h (by simp)
  · by_cases hb : b = []
    · rw [hb, areSimilar_nil_right] at h
      exact absurd h (by simp)
    · by_cases hab : a = b
      · subst hab
        exact areSimilar_self a ha _
      · rw [areSimilar] at h ⊢
        rw [if_neg (by simp [ha, hb]), if_neg hab] at h ⊢
        rw [decide_eq_true_eq] at h ⊢
        have ht := thresholds_easy_le_hard ql ms nq
        refine le_trans (le_trans ?_ h) ?_
        · rw [requiredMatches_easy]
          exact one_le_requiredMatches _
        · refine count_le_of_pointwise _ _ _ _ _ _ _ _ ?_ ?_ ?_ ?_
          · intro hd
            rw [decide_eq_true_eq] at hd ⊢
            exact le_trans ht.1 hd
          · intro hd
            rw [decide_eq_true_eq] at hd ⊢
            exact le_trans ht.2.1 hd
          · intro hd
            rw [decide_eq_true_eq] at hd ⊢
            exact le_trans ht.2.2.1 hd
          · intro hd
            rw [decide_eq_true_eq] at hd ⊢
            exact le_trans ht.2.2.2 hd

set_option maxHeartbeats 8000000 in
/-- Claim C7 counterexample: a concrete batch of four questions under
the context with short question length where the easy-difficulty run
removes strictly fewer duplicates than the hard-difficulty run.  With
easy the second question is flagged against the first and dropped;
with hard the second question survives and then absorbs the third and
fourth. -/
theorem claim_C7_counterexample :
    (removeDuplicates
        [mkQuestion ("abfg345".data), mkQuestion ("abcdefg".data),
          mkQuestion ("abcde12".data), mkQuestion ("12cdefg".data)]
        (some (DuplicationContext.mk (some QuestionLength.short) (some ("easy".data))
          none none))).duplicatesRemoved <
      (removeDuplicates
        [mkQuestion ("abfg345".data), mkQuestion ("abcdefg".data),
          mkQuestion ("abcde12".data), mkQuestion ("12cdefg".data)]
        (some (DuplicationContext.mk (some QuestionLength.short) (some ("hard".data))
          none none))).duplicatesRemoved := by
  with_unfolding_all decide

/-- Claim C7 witness: identical strings are similar under hard, and the
amended theorem transports this to easy. -/
theorem claim_C7_witness :
    areSimilar ("abc".data) ("abc".data)
        (some (DuplicationContext.mk none (some ("hard".data)) none none)) = true ∧
      areSimilar ("abc".data) ("abc".data)
        (some (DuplicationContext.mk none (some ("easy".data)) none none)) = true :=
  ⟨by decide,
    claim_C7_easy_of_hard ("abc".data) ("abc".data) none none none (by decide)⟩

/-! ### Claim C8: symmetry of the similarity predicate -/

/-- The longest-common-subsequence recurrence that the row program
computes, as a structural recursion (branch order as in the source:
the previous row entry first, then the current row entry). -/
def lcsRec : Str → Str → Nat
  | [], _ => 0
  | _ :: _, [] => 0
  | a :: as, b :: bs =>
    if a = b then lcsRec as bs + 1
    else max (lcsRec as (b :: bs)) (lcsRec (a :: as) bs)
termination_by a b => a.length + b.length

theorem lcsRec_nil_left (bs : Str) : lcsRec [] bs = 0 := by rw [lcsRec]

theorem lcsRec_nil_right (as : Str) : lcsRec as [] = 0 := by
  cases as with
  | nil => rw [lcsRec]
  | cons a as => rw [lcsRec]

theorem lcsRec_comm : ∀ (a b : Str), lcsRec a b = lcsRec b a := by
  intro a
  induction a with
  | nil =>
    intro b
    rw [lcsRec_nil_left, lcsRec_nil_right]
  | cons x xs ihx =>
    intro b
    induction b with
    | nil => rw [lcsRec_nil_left, lcsRec_nil_right]
    | cons y ys ihy =>
      rw [lcsRec, lcsRec]
      by_cases hxy : x = y
      · rw [if_pos hxy, if_pos hxy.symm, ihx ys]
      · rw [if_neg hxy, if_neg (fun h => hxy h.symm)]
        rw [ihx (y :: ys), ihy]
        exact max_comm _ _

/-- The intended content of a DP row: the values of lcsRec at the
reversed processed prefix rp against the successively extended reversed
prefixes of the second string (rq already consumed, bs remaining). -/
def lcsRowSpec (rp : Str) : Str → Str → List Nat
  | _, [] => []
  | rq, bj :: bs => lcsRec rp (bj :: rq) :: lcsRowSpec rp (bj :: rq) bs

theorem lcsRowAux_spec (x : Char) :
    ∀ (bs rq rp : Str),
      lcsRowAux x bs (lcsRowSpec rp rq bs) (lcsRec rp rq) (lcsRec (x :: rp) rq) =
        lcsRowSpec (x :: rp) rq bs := by
  intro bs
  induction bs with
  | nil => intro rq rp; rfl
  | cons bj bs ih =>
    intro rq rp
    rw [lcsRowSpec, lcsRowSpec, lcsRowAux]
    have hv : lcsRec (x :: rp) (bj :: rq) =
        if x = bj then lcsRec rp rq + 1
        else max (lcsRec rp (bj :: rq)) (lcsRec (x :: rp) rq) := by
      rw [lcsRec]
    rw [← hv]
    rw [ih (bj :: rq) rp]

theorem lcsRowSpec_nil_left : ∀ (bs rq : Str), lcsRowSpec [] rq bs = List.replicate bs.length 0 := by
  intro bs
  induction bs with
  | nil => intro rq; rfl
  | cons bj bs ih =>
    intro rq
    rw [lcsRowSpec, lcsRec_nil_left, ih (bj :: rq)]
    rfl

theorem lcs_fold_spec (b : Str) :
    ∀ (a rp : Str),
      a.foldl (fun row ai => lcsRowAux ai b row 0 0) (lcsRowSpec rp [] b) =
        lcsRowSpec (a.reverse ++ rp) [] b := by
  intro a
  induction a with
  | nil => intro rp; simp
  | cons x xs ih =>
    intro rp
    rw [List.foldl_cons]
    have hstep : lcsRowAux x b (lcsRowSpec rp [] b) 0 0 = lcsRowSpec (x :: rp) [] b := by
      have h := lcsRowAux_spec x b [] rp
      rw [lcsRec_nil_right, lcsRec_nil_right] at h
      exact h
    rw [hstep, ih (x :: rp)]
    congr 1
    simp

theorem lcsRowSpec_getLastD (rp : Str) :
    ∀ (bs rq : Str),
      (lcsRowSpec rp rq bs).getLastD (lcsRec rp rq) = lcsRec rp (bs.reverse ++ rq) := by
  intro bs
  induction bs with
  | nil => intro rq; rfl
  | cons bj bs ih =>
    intro rq
    rw [lcsRowSpec, List.getLastD_cons, ih (bj :: rq)]
    congr 1
    simp

theorem lcsLenDP_eq_lcsRec_rev (a b : Str) : lcsLenDP a b = lcsRec a.reverse b.reverse := by
  rw [lcsLenDP, ← lcsRowSpec_nil_left b [], lcs_fold_spec b a [], List.append_nil]
  have h := lcsRowSpec_getLastD a.reverse b []
  rw [lcsRec_nil_right, List.append_nil] at h
  exact h

theorem lcsLenDP_comm (a b : Str) : lcsLenDP a b = lcsLenDP b a := by
  rw [lcsLenDP_eq_lcsRec_rev, lcsLenDP_eq_lcsRec_rev, lcsRec_comm]

/-- The Levenshtein recurrence that the row program computes, as a
structural recursion (minimum taken in source order: delete, insert,
substitute). -/
def levRec : Str → Str → Nat
  | [], bs => bs.length
  | a :: as, [] => (a :: as).length
  | a :: as, b :: bs =>
    if a = b then levRec as bs
    else 1 + min (levRec as (b :: bs)) (min (levRec (a :: as) bs) (levRec as bs))
termination_by a b => a.length + b.length

theorem levRec_nil_left (bs : Str) : levRec [] bs = bs.length := by rw [levRec]

theorem levRec_nil_right (as : Str) : levRec as [] = as.length := by
  cases as with
  | nil => rw [levRec]
  | cons a as => rw [levRec]

theorem levRec_comm : ∀ (a b : Str), levRec a b = levRec b a := by
  intro a
  induction a with
  | nil =>
    intro b
    rw [levRec_nil_left, levRec_nil_right]
  | cons x xs ihx =>
    intro b
    induction b with
    | nil => rw [levRec_nil_left, levRec_nil_right]
    | cons y ys ihy =>
      rw [levRec, levRec]
      by_cases hxy : x = y
      · rw [if_pos hxy, if_pos hxy.symm, ihx ys]
      · rw [if_neg hxy, if_neg (fun h => hxy h.symm)]
        rw [ihx (y :: ys), ihy, ihx ys]
        rw [min_left_comm]

/-- The intended content of a Levenshtein DP row, as for lcsRowSpec. -/
def levRowSpec (rp : Str) : Str → Str → List Nat
  | _, [] => []
  | rq, bj :: bs => levRec rp (bj :: rq) :: levRowSpec rp (bj :: rq) bs

theorem levRowAux_spec (x : Char) :
    ∀ (bs rq rp : Str),
      levRowAux x bs (levRowSpec rp rq bs) (levRec rp rq) (levRec (x :: rp) rq) =
        levRowSpec (x :: rp) rq bs := by
  intro bs
  induction bs with
  | nil => intro rq rp; rfl
  | cons bj bs ih =>
    intro rq rp
    rw [levRowSpec, levRowSpec, levRowAux]
    have hv : levRec (x :: rp) (bj :: rq) =
        if x = bj then levRec rp rq
        else 1 + min (levRec rp (bj :: rq)) (min (levRec (x :: rp) rq) (levRec rp rq)) := by
      rw [levRec]
    rw [← hv]
    rw [ih (bj :: rq) rp]

theorem levRowSpec_nil_left :
    ∀ (bs rq : Str), levRowSpec [] rq bs = List.range' (rq.length + 1) bs.length := by
  intro bs
  induction bs with
  | nil => intro rq; rfl
  | cons bj bs ih =>
    intro rq
    rw [levRowSpec, levRec_nil_left, ih (bj :: rq)]
    simp [List.range'_succ]

theorem lev_fold_spec (b : Str) :
    ∀ (a rp : Str),
      a.foldl
          (fun st ai =>
            match st with
            | (i, d :: olds) => (i + 1, (i + 1) :: levRowAux ai b olds d (i + 1))
            | (i, []) => (i + 1, []))
          (rp.length, levRec rp [] :: levRowSpec rp [] b) =
        ((a.reverse ++ rp).length,
          levRec (a.reverse ++ rp) [] :: levRowSpec (a.reverse ++ rp) [] b) := by
  intro a
  induction a with
  | nil => intro rp; simp
  | cons x xs ih =>
    intro rp
    rw [List.foldl_cons]
    show List.foldl _
        ((x :: rp).length,
          ((x :: rp).length) :: levRowAux x b (levRowSpec rp [] b) (levRec rp [])
            ((x :: rp).length))
        xs = _
    have key : ((x :: rp).length) :: levRowAux x b (levRowSpec rp [] b) (levRec rp [])
        ((x :: rp).length) = levRec (x :: rp) [] :: levRowSpec (x :: rp) [] b := by
      rw [show ((x :: rp).length) = levRec (x :: rp) [] from (levRec_nil_right _).symm]
      rw [levRowAux_spec x b [] rp]
    rw [key]
    have hl : xs.reverse ++ x :: rp = (x :: xs).reverse ++ rp := by simp
    rw [ih (x :: rp), hl]

theorem levRowSpec_getLastD (rp : Str) :
    ∀ (bs rq : Str),
      (levRowSpec rp rq bs).getLastD (levRec rp rq) = levRec rp (bs.reverse ++ rq) := by
  intro bs
  induction bs with
  | nil => intro rq; rfl
  | cons bj bs ih =>
    intro rq
    rw [levRowSpec, List.getLastD_cons, ih (bj :: rq)]
    congr 1
    simp

theorem editDistance_eq_levRec_rev (a b : Str) :
    editDistance a b = levRec a.reverse b.reverse := by
  rw [editDistance]
  have hinit : (0, List.range (b.length + 1)) =
      (List.length ([] : Str), levRec [] [] :: levRowSpec [] [] b) := by
    rw [levRowSpec_nil_left b []]
    rw [show levRec ([] : Str) [] = 0 from levRec_nil_left []]
    rw [List.range_eq_range', List.range'_succ]
    rfl
  rw [hinit, lev_fold_spec b a [], List.append_nil]
  have h := levRowSpec_getLastD a.reverse b []
  rw [List.append_nil] at h
  have h0 : levRec a.reverse [] = a.reverse.length := levRec_nil_right _
  rw [List.getLastD_cons]
  exact h

theorem editDistance_comm (a b : Str) : editDistance a b = editDistance b a := by
  rw [editDistance_eq_levRec_rev, editDistance_eq_levRec_rev, levRec_comm]

theorem dedup_filter_mem_card (a b : List Str) :
    ((a.dedup.filter (fun x => decide (x ∈ b.dedup))).length : Nat) =
      (a.toFinset ∩ b.toFinset).card := by
  have hnd : (a.dedup.filter (fun x => decide (x ∈ b.dedup))).Nodup :=
    a.nodup_dedup.filter _
  rw [← List.dedup_eq_self.mpr hnd, ← List.card_toFinset]
  congr 1
  ext x
  simp [List.mem_filter, List.mem_dedup, List.mem_toFinset]

theorem dedup_append_card (a b : List Str) :
    (((a.dedup ++ b.dedup).dedup).length : Nat) = (a.toFinset ∪ b.toFinset).card := by
  rw [← List.card_toFinset]
  congr 1
  ext x
  simp [List.mem_toFinset, List.mem_dedup]

theorem jaccard_comm (a b : List Str) : jaccard a b = jaccard b a := by
  rw [jaccard, jaccard]
  rw [dedup_filter_mem_card a b, dedup_filter_mem_card b a, Finset.inter_comm]
  rw [dedup_append_card a b, dedup_append_card b a, Finset.union_comm]

theorem conceptSimilarity_comm (a b : Str) : conceptSimilarity a b = conceptSimilarity b a := by
  rw [conceptSimilarity, conceptSimilarity]
  rw [show ∀ (p q : Bool), (p && q) = (q && p) from fun p q => Bool.and_comm p q]
  have hterms : ∀ t : Str, extractKeyTerms t =
      (((splitWs (normalizeText t)).filter (fun w => 3 < w.length)).filter
        (fun w => 5 ≤ w.length)).dedup := fun t => rfl
  rw [hterms a, hterms b]
  rw [dedup_filter_mem_card, dedup_filter_mem_card, Finset.inter_comm]
  rw [dedup_append_card, dedup_append_card, Finset.union_comm]

theorem lcsRatio_comm (a b : Str) : lcsRatio a b = lcsRatio b a := by
  rw [lcsRatio, lcsRatio, lcsLenDP_comm, Bool.or_comm, Nat.max_comm]

theorem editDistanceRatio_comm (a b : Str) : editDistanceRatio a b = editDistanceRatio b a := by
  rw [editDistanceRatio, editDistanceRatio, editDistance_comm, Nat.max_comm]

/-- Claim C8: areSimilar is symmetric in its two string arguments for
every context: the falsy and identity shortcuts are symmetric, all four
metrics are symmetric functions of the two strings, and the thresholds
do not depend on argument order. -/
theorem claim_C8_symmetric (a b : Str) (context : Option DuplicationContext) :
    areSimilar a b context = areSimilar b a context := by
  rw [areSimilar, areSimilar]
  by_cases ha : a = []
  · by_cases hb : b = [] <;> simp [ha, hb]
  · by_cases hb : b = []
    · simp [ha, hb]
    · have hA : ¬((decide (a = []) || decide (b = [])) = true) := by simp [ha, hb]
      have hB : ¬((decide (b = []) || decide (a = [])) = true) := by simp [ha, hb]
      rw [if_neg hA, if_neg hB]
      by_cases hab : a = b
      · rw [if_pos hab, if_pos hab.symm]
      · rw [if_neg hab, if_neg (fun h => hab h.symm)]
        rw [jaccard_comm (tokenize a) (tokenize b), lcsRatio_comm a b,
          editDistanceRatio_comm (normalizeText a) (normalizeText b),
          conceptSimilarity_comm a b]

/-! ### Claims C9 and C10: the normalizer -/

/-- Words joined by single spaces. -/
def joinWords : List Str → Str
  | [] => []
  | [w] => w
  | w :: ws => w ++ ' ' :: joinWords ws

/-- The right trim: drop trailing whitespace. -/
def rtrim (s : Str) : Str := (s.reverse.dropWhile isWs).reverse

theorem dropWhile_eq_self_of_all {p : Char → Bool} (l : Str) (h : ∀ c ∈ l, p c = false) :
    l.dropWhile p = l := by
  cases l with
  | nil => rfl
  | cons c r => rw [List.dropWhile_cons, if_neg (by simp [h c (by simp)])]

theorem collapseWsAux_true (r : Str) :
    collapseWsAux true r = collapseWsAux false (r.dropWhile isWs) := by
  induction r with
  | nil => rfl
  | cons c r ih =>
    by_cases hc : isWs c = true
    · rw [collapseWsAux, if_pos hc, if_pos rfl, List.dropWhile_cons, if_pos hc, ih]
    · rw [collapseWsAux, if_neg (by simp [hc]), List.dropWhile_cons, if_neg (by simp [hc]),
        collapseWsAux, if_neg (by simp [hc])]

theorem jsTrim_space_cons (X : Str) : jsTrim (' ' :: X) = jsTrim X := by
  rw [jsTrim, jsTrim, List.dropWhile_cons, if_pos (by decide)]

theorem wordsOf_dropWhile (r : Str) : wordsOf (r.dropWhile isWs) = wordsOf r := by
  induction r with
  | nil => rfl
  | cons c r ih =>
    by_cases hc : isWs c = true
    · rw [List.dropWhile_cons, if_pos hc, ih, wordsOf, if_pos hc]
    · rw [List.dropWhile_cons, if_neg (by simp [hc])]

theorem collapseWsAux_word (w : Str) :
    ∀ (r : Str), (∀ c ∈ w, isWs c = false) →
      collapseWsAux false (w ++ r) = w ++ collapseWsAux false r := by
  induction w with
  | nil => intro r _; rfl
  | cons c w ih =>
    intro r hw
    have hc : isWs c = false := hw c (by simp)
    rw [List.cons_append, collapseWsAux, if_neg (by simp [hc]),
      ih r (fun d hd => hw d (by simp [hd])), List.cons_append]

theorem rtrim_word_append (w X : Str) (hnws : ∀ c ∈ w, isWs c = false) :
    rtrim (w ++ X) = w ++ rtrim X := by
  rw [rtrim, List.reverse_append, List.dropWhile_append]
  by_cases hX : (X.reverse.dropWhile isWs).isEmpty = true
  · rw [if_pos hX]
    rw [dropWhile_eq_self_of_all w.reverse (fun c hc => hnws c (by simpa using hc))]
    have hnil : X.reverse.dropWhile isWs = [] := List.isEmpty_iff.mp hX
    rw [rtrim, hnil]
    simp
  · rw [if_neg hX]
    rw [rtrim, List.reverse_append, List.reverse_reverse]

theorem jsTrim_word_append (c : Char) (w X : Str)
    (hnws : ∀ d ∈ c :: w, isWs d = false) :
    jsTrim ((c :: w) ++ X) = (c :: w) ++ rtrim X := by
  have hc : isWs c = false := hnws c (by simp)
  rw [jsTrim, List.cons_append, List.dropWhile_cons, if_neg (by simp [hc])]
  exact rtrim_word_append (c :: w) X hnws

theorem rtrim_cons_of_ne_nil (a : Char) (X : Str) (h : rtrim X ≠ []) :
    rtrim (a :: X) = a :: rtrim X := by
  have h' : ¬(X.reverse.dropWhile isWs).isEmpty = true := by
    intro hc
    exact h (by rw [rtrim, List.isEmpty_iff.mp hc]; rfl)
  rw [rtrim, List.reverse_cons, List.dropWhile_append, if_neg h']
  rw [rtrim, List.reverse_append]
  rfl

theorem rtrim_ne_nil_of_head (e : Char) (l : Str) (he : isWs e = false) :
    rtrim (e :: l) ≠ [] := by
  intro hcon
  rw [rtrim, List.reverse_eq_nil_iff, List.dropWhile_eq_nil_iff] at hcon
  have := hcon e (by simp)
  rw [he] at this
  exact absurd this (by simp)

theorem head_dropWhile_false {p : Char → Bool} :
    ∀ (l : Str) (a : Char) (l' : Str), l.dropWhile p = a :: l' → p a = false := by
  intro l
  induction l with
  | nil => intro a l' h; simp [List.dropWhile] at h
  | cons c r ih =>
    intro a l' h
    by_cases hc : p c = true
    · rw [List.dropWhile_cons, if_pos hc] at h
      exact ih a l' h
    · rw [List.dropWhile_cons, if_neg (by simp [hc])] at h
      injection h with h1 _
      subst h1
      simp at hc
      exact hc

theorem joinWords_cons_of_ne_nil (w : Str) (W : List Str) (h : W ≠ []) :
    joinWords (w :: W) = w ++ ' ' :: joinWords W := by
  cases W with
  | nil => exact absurd rfl h
  | cons w2 W2 => rw [joinWords] <;> simp

theorem trim_collapse_fuel :
    ∀ (n : Nat) (t : Str), t.length ≤ n →
      jsTrim (collapseWsAux false t) = joinWords (wordsOf t) := by
  intro n
  induction n with
  | zero =>
    intro t ht
    have ht0 : t = [] := List.length_eq_zero.mp (Nat.le_zero.mp ht)
    subst ht0
    rw [show wordsOf ([] : Str) = [] from by rw [wordsOf]]
    rfl
  | succ n ih =>
    intro t ht
    rcases t with _ | ⟨c, rest⟩
    · rw [show wordsOf ([] : Str) = [] from by rw [wordsOf]]
      rfl
    · have hrest : rest.length ≤ n := by
        simpa using Nat.le_of_succ_le_succ (by simpa using ht)
      by_cases hc : isWs c = true
      · rw [collapseWsAux, if_pos hc, if_neg (by simp)]
        rw [jsTrim_space_cons, collapseWsAux_true]
        rw [wordsOf, if_pos hc, ← wordsOf_dropWhile rest]
        have hlen : (rest.dropWhile isWs).length ≤ n :=
          le_trans (length_dropWhile_le isWs rest) hrest
        exact ih (rest.dropWhile isWs) hlen
      · have hcf : isWs c = false := by simpa using hc
        have hwnws : ∀ d ∈ c :: rest.takeWhile (fun d => !isWs d), isWs d = false := by
          intro d hd
          rcases List.mem_cons.mp hd with h | h
          · rw [h]; exact hcf
          · simpa using List.mem_takeWhile_imp h
        rw [collapseWsAux, if_neg (by simp [hcf])]
        have hcw : c :: collapseWsAux false rest =
            (c :: rest.takeWhile (fun d => !isWs d)) ++
              collapseWsAux false (rest.dropWhile (fun d => !isWs d)) := by
          conv_lhs => rw [← List.takeWhile_append_dropWhile (fun d => !isWs d) rest]
          rw [collapseWsAux_word (rest.takeWhile (fun d => !isWs d)) _
            (fun d hd => hwnws d (by simp [hd]))]
          rfl
        rw [hcw, jsTrim_word_append c _ _ hwnws]
        rw [wordsOf, if_neg (by simp [hcf])]
        have hrlen : (rest.dropWhile (fun d => !isWs d)).length ≤ rest.length :=
          length_dropWhile_le _ rest
        rcases hr2 : rest.dropWhile (fun d => !isWs d) with _ | ⟨d, r2⟩
        · rw [show wordsOf ([] : Str) = [] from by rw [wordsOf]]
          rw [show joinWords [c :: rest.takeWhile (fun d => !isWs d)] =
            c :: rest.takeWhile (fun d => !isWs d) from by rw [joinWords]]
          rw [show collapseWsAux false ([] : Str) = [] from rfl]
          simp [rtrim]
        · have hd : isWs d = true := by
            have := head_dropWhile_false rest d r2 hr2
            simpa using this
          rw [collapseWsAux, if_pos hd, if_neg (by simp), collapseWsAux_true]
          rw [show wordsOf (d :: r2) = wordsOf r2 from by rw [wordsOf, if_pos hd]]
          rw [← wordsOf_dropWhile r2]
          have hr2len : r2.length < rest.length := by
            have : (d :: r2).length ≤ rest.length := hr2 ▸ hrlen
            simpa using this
          rcases hr3 : r2.dropWhile isWs with _ | ⟨e, r4⟩
          · rw [show collapseWsAux false ([] : Str) = [] from rfl]
            rw [show wordsOf ([] : Str) = [] from by rw [wordsOf]]
            rw [show joinWords [c :: rest.takeWhile (fun d => !isWs d)] =
              c :: rest.takeWhile (fun d => !isWs d) from by rw [joinWords]]
            have hsp : isWs ' ' = true := by decide
            simp [rtrim, hsp]
          · have he : isWs e = false := head_dropWhile_false r2 e r4 hr3
            rw [collapseWsAux, if_neg (by simp [he])]
            have hztrim : rtrim (' ' :: e :: collapseWsAux false r4) =
                ' ' :: rtrim (e :: collapseWsAux false r4) :=
              rtrim_cons_of_ne_nil ' ' _ (rtrim_ne_nil_of_head e _ he)
            rw [hztrim]
            have hjs : rtrim (e :: collapseWsAux false r4) =
                jsTrim (e :: collapseWsAux false r4) := by
              rw [jsTrim, List.dropWhile_cons, if_neg (by simp [he])]
              rfl
            rw [hjs]
            have hlen3 : (e :: r4).length ≤ n := by
              have h1 : (e :: r4).length ≤ r2.length := hr3 ▸ length_dropWhile_le isWs r2
              omega
            have hih := ih (e :: r4) hlen3
            rw [collapseWsAux, if_neg (by simp [he])] at hih
            rw [hih]
            have hwne : wordsOf (e :: r4) ≠ [] := by
              rw [wordsOf, if_neg (by simp [he])]
              simp
            rw [joinWords_cons_of_ne_nil _ _ hwne]

/-- Trimming the whitespace collapse of a string yields its words
joined by single spaces. -/
theorem trim_collapse_words (t : Str) :
    jsTrim (collapseWs t) = joinWords (wordsOf t) :=
  trim_collapse_fuel t.length t le_rfl

/-- The normalizer restated independently of the collapsing state
machine: lowercase, filter out the removal class the source actually
uses, then join the maximal non-whitespace words by single spaces. -/
def normalizeSpec (s : Str) : Str :=
  joinWords (wordsOf ((s.map Char.toLower).filter (fun c => !removedClass c)))

/-- The normalizer the specification sentence describes: it removes
exactly the Unicode punctuation-class characters, keeping the nine
symbol characters of the removal class of the source. -/
def normalizeClaimed (s : Str) : Str :=
  joinWords (wordsOf ((s.map Char.toLower).filter (fun c => !punctClass c)))

theorem toLower_toLower (c : Char) : Char.toLower (Char.toLower c) = Char.toLower c := by
  by_cases h : c.toNat ≥ 65 ∧ c.toNat ≤ 90
  · rw [show Char.toLower c = Char.ofNat (c.toNat + 32) from by
      simp only [Char.toLower]; rw [if_pos h]]
    obtain ⟨h1, h2⟩ := h
    generalize c.toNat = m at h1 h2
    interval_cases m <;> decide
  · rw [show Char.toLower c = c from by simp only [Char.toLower]; rw [if_neg h]]
    rw [show Char.toLower c = c from by simp only [Char.toLower]; rw [if_neg h]]

theorem mem_joinWords {c : Char} :
    ∀ (W : List Str), c ∈ joinWords W → c = ' ' ∨ ∃ w ∈ W, c ∈ w := by
  intro W
  induction W with
  | nil => intro h; rw [joinWords] at h; simp at h
  | cons w ws ih =>
    cases ws with
    | nil =>
      intro h
      rw [joinWords] at h
      exact Or.inr ⟨w, by simp, h⟩
    | cons w2 ws2 =>
      intro h
      rw [joinWords_cons_of_ne_nil _ _ (by simp)] at h
      rcases List.mem_append.mp h with hw | hrest
      · exact Or.inr ⟨w, by simp, hw⟩
      · rcases List.mem_cons.mp hrest with hsp | hj
        · exact Or.inl hsp
        · rcases ih hj with hsp | ⟨w', hw', hc'⟩
          · exact Or.inl hsp
          · exact Or.inr ⟨w', by simp [hw'], hc'⟩

theorem wordsOf_good_fuel : ∀ (n : Nat) (t : Str), t.length ≤ n →
    ∀ w ∈ wordsOf t,
      (w ≠ [] ∧ ∀ c ∈ w, isWs c = false) ∧ ∀ c ∈ w, c ∈ t := by
  intro n
  induction n with
  | zero =>
    intro t ht w hw
    have : t = [] := List.length_eq_zero.mp (Nat.le_zero.mp ht)
    subst this
    rw [wordsOf] at hw
    simp at hw
  | succ n ih =>
    intro t ht w hw
    cases t with
    | nil => rw [wordsOf] at hw; simp at hw
    | cons c rest =>
      rw [wordsOf] at hw
      by_cases hc : isWs c = true
      · rw [if_pos hc] at hw
        have hres := ih rest (by simpa using Nat.le_of_succ_le_succ ht) w hw
        exact ⟨hres.1, fun d hd => by simp [hres.2 d hd]⟩
      · rw [if_neg hc] at hw
        rcases List.mem_cons.mp hw with rfl | hw'
        · refine ⟨⟨by simp, ?_⟩, ?_⟩
          · intro d hd
            rcases List.mem_cons.mp hd with rfl | hd'
            · simpa using hc
            · simpa using List.mem_takeWhile_imp hd'
          · intro d hd
            rcases List.mem_cons.mp hd with rfl | hd'
            · simp
            · exact List.mem_cons_of_mem c
                ((List.takeWhile_prefix (fun d => !isWs d)).subset hd')
        · have hlen : (rest.dropWhile (fun d => !isWs d)).length ≤ n := by
            have := length_dropWhile_le (fun d => !isWs d) rest
            simp at ht
            omega
          have hres := ih _ hlen w hw'
          exact ⟨hres.1, fun d hd =>
            List.mem_cons_of_mem c
              ((List.dropWhile_suffix (fun d => !isWs d)).subset (hres.2 d hd))⟩

theorem takeWhile_word_append {p : Char → Bool} :
    ∀ (w : Str) (x : Char) (r : Str), (∀ c ∈ w, p c = true) → p x = false →
      (w ++ x :: r).takeWhile p = w ∧ (w ++ x :: r).dropWhile p = x :: r := by
  intro w
  induction w with
  | nil =>
    intro x r _ hx
    constructor
    · rw [List.nil_append, List.takeWhile_cons, if_neg (by simp [hx])]
    · rw [List.nil_append, List.dropWhile_cons, if_neg (by simp [hx])]
  | cons c w ih =>
    intro x r hw hx
    have hc : p c = true := hw c (by simp)
    have hih := ih x r (fun d hd => hw d (by simp [hd])) hx
    constructor
    · rw [List.cons_append, List.takeWhile_cons, if_pos hc, hih.1]
    · rw [List.cons_append, List.dropWhile_cons, if_pos hc, hih.2]

theorem wordsOf_join : ∀ (W : List Str),
    (∀ w ∈ W, w ≠ [] ∧ ∀ c ∈ w, isWs c = false) →
    wordsOf (joinWords W) = W := by
  intro W
  induction W with
  | nil => intro _; rw [joinWords]; rw [wordsOf]
  | cons w ws ih =>
    intro hgood
    obtain ⟨hne, hnws⟩ := hgood w (by simp)
    obtain ⟨c, wr, rfl⟩ : ∃ c wr, w = c :: wr := by
      cases w with
      | nil => exact absurd rfl hne
      | cons c wr => exact ⟨c, wr, rfl⟩
    have hc : isWs c = false := hnws c (by simp)
    cases ws with
    | nil =>
      rw [joinWords]
      rw [wordsOf, if_neg (by simp [hc])]
      rw [List.takeWhile_eq_self_iff.mpr (fun d hd => by simp [hnws d (by simp [hd])])]
      rw [List.dropWhile_eq_nil_iff.mpr (fun d hd => by simp [hnws d (by simp [hd])])]
      rw [show wordsOf ([] : Str) = [] from by rw [wordsOf]]
    | cons w2 ws2 =>
      rw [joinWords_cons_of_ne_nil _ _ (by simp)]
      rw [List.cons_append, wordsOf, if_neg (by simp [hc])]
      have hta := @takeWhile_word_append (fun d => !isWs d) wr ' ' (joinWords (w2 :: ws2))
        (fun d hd => by simp [hnws d (by simp [hd])]) (by decide)
      rw [hta.1, hta.2]
      rw [wordsOf, if_pos (by decide)]
      rw [ih (fun v hv => hgood v (by simp [hv]))]

theorem mem_norm_chars (s : Str) {c : Char} (hc : c ∈ normalizeText s) :
    Char.toLower c = c ∧ removedClass c = false := by
  rw [show normalizeText s =
      joinWords (wordsOf ((s.map Char.toLower).filter (fun c => !removedClass c)))
    from trim_collapse_words _] at hc
  rcases mem_joinWords _ hc with rfl | ⟨w, hw, hcw⟩
  · exact ⟨by decide, by decide⟩
  · have hmem : c ∈ (s.map Char.toLower).filter (fun c => !removedClass c) :=
      (wordsOf_good_fuel _ _ le_rfl w hw).2 c hcw
    obtain ⟨hmap, hfilt⟩ := List.mem_filter.mp hmem
    obtain ⟨a, _, rfl⟩ := List.mem_map.mp hmap
    exact ⟨toLower_toLower a, by simpa using hfilt⟩

/-- Claim C9 counterexample: the dollar sign is not in the Unicode
punctuation general category (it is a currency symbol), so a normalizer
removing exactly the punctuation class keeps it, yet normalizeText
removes it: the two disagree on the one-character string consisting of a
dollar sign. -/
theorem claim_C9_counterexample :
    normalizeText ['$'] ≠ normalizeClaimed ['$'] ∧
    normalizeText ['$'] = [] ∧ normalizeClaimed ['$'] = ['$'] := by
  have h2 : normalizeClaimed ['$'] = ['$'] := by
    show joinWords (wordsOf (((['$'] : Str).map Char.toLower).filter
      (fun c => !punctClass c))) = ['$']
    rw [show ((['$'] : Str).map Char.toLower).filter (fun c => !punctClass c) = ['$']
      from by decide]
    rw [wordsOf, if_neg (by decide)]
    simp only [List.takeWhile_nil, List.dropWhile_nil]
    rw [show wordsOf ([] : Str) = [] from by rw [wordsOf]]
    rw [joinWords]
  refine ⟨?_, by decide, h2⟩
  rw [h2]
  decide

/-- Claim C9 (corrected): normalizeText lowercases, removes exactly the
characters of the removal class of the source (the Unicode punctuation
class together with the nine symbol characters dollar, plus, less-than,
equals, greater-than, caret, backquote, vertical bar and tilde),
collapses every whitespace run to a single space and trims: it returns
the remaining maximal non-whitespace words joined by single spaces. The
original claim, which allows only punctuation-class characters to be
removed, fails on symbol characters such as the dollar sign. -/
theorem claim_C9_normalizer (s : Str) : normalizeText s = normalizeSpec s :=
  trim_collapse_words ((s.map Char.toLower).filter (fun c => !removedClass c))

/-- Claim C10: normalizeText is idempotent: normalizing an already
normalized string changes nothing, so the double normalization in the
deduplication pipeline is harmless. -/
theorem claim_C10_idempotent (s : Str) :
    normalizeText (normalizeText s) = normalizeText s := by
  have hmap : (normalizeText s).map Char.toLower = normalizeText s := by
    rw [List.map_congr_left (fun c hc => (mem_norm_chars s hc).1)]
    simp
  have hfilter : (normalizeText s).filter (fun c => !removedClass c) = normalizeText s :=
    List.filter_eq_self.mpr (fun c hc => by simp [(mem_norm_chars s hc).2])
  have hns : normalizeText s =
      joinWords (wordsOf ((s.map Char.toLower).filter (fun c => !removedClass c))) :=
    trim_collapse_words _
  show jsTrim (collapseWs (((normalizeText s).map Char.toLower).filter
    (fun c => !removedClass c))) = normalizeText s
  rw [hmap, hfilter, trim_collapse_words (normalizeText s)]
  conv_lhs => rw [hns]
  rw [wordsOf_join _ (fun w hw => (wordsOf_good_fuel _ _ le_rfl w hw).1)]
  exact hns.symm
